import Mathlib

/-!
Verification of the inter-process RPC transport of mcp-code-wrapper
(`src/index.ts`, class `MCPClient`, lines 390-575 of the concatenated file):
newline framing (`processBuffer`), request/response correlation (`request`,
the body of `processBuffer`), timeouts, teardown (`stop`), and response
normalization (`normalizeResponse` / `normalizeData`).

The embedding models JavaScript JSON values as the inductive `Json` below.
JSON numbers are modelled as integers (every numeric value appearing in the
transport -- request ids -- is an integer; payload floats are outside the
model).  JS objects are association lists in insertion order, with unique
keys, exactly as `Object.keys` / `Object.entries` enumerate them.
-/

namespace MCPWrap

/-- A JavaScript JSON value: the possible results of `JSON.parse` (numbers
restricted to integers).  Object fields are kept in insertion order. -/
inductive Json where
  | null : Json
  | bool (b : Bool) : Json
  | num (n : Int) : Json
  | str (s : String) : Json
  | arr (items : List Json) : Json
  | obj (fields : List (String × Json)) : Json
deriving Repr

mutual

/-- Decidable equality of `Json` values (structural, like deep equality). -/
def beqJson : Json → Json → Bool
  | .null, .null => true
  | .bool a, .bool b => a == b
  | .num a, .num b => a == b
  | .str a, .str b => a == b
  | .arr a, .arr b => beqJsonList a b
  | .obj a, .obj b => beqJsonFields a b
  | _, _ => false

/-- Pointwise equality on lists of `Json`. -/
def beqJsonList : List Json → List Json → Bool
  | [], [] => true
  | a :: as, b :: bs => beqJson a b && beqJsonList as bs
  | _, _ => false

/-- Pointwise equality on association lists of `Json`. -/
def beqJsonFields : List (String × Json) → List (String × Json) → Bool
  | [], [] => true
  | (ka, va) :: as, (kb, vb) :: bs => ka == kb && beqJson va vb && beqJsonFields as bs
  | _, _ => false

end

mutual

theorem beqJson_eq : ∀ a b : Json, beqJson a b = true → a = b
  | .null, .null, _ => rfl
  | .bool _, .bool _, h => by
    simp only [beqJson, beq_iff_eq] at h; exact congrArg Json.bool h
  | .num _, .num _, h => by
    simp only [beqJson, beq_iff_eq] at h; exact congrArg Json.num h
  | .str _, .str _, h => by
    simp only [beqJson, beq_iff_eq] at h; exact congrArg Json.str h
  | .arr a, .arr b, h => congrArg Json.arr (beqJsonList_eq a b h)
  | .obj a, .obj b, h => congrArg Json.obj (beqJsonFields_eq a b h)

theorem beqJsonList_eq : ∀ a b : List Json, beqJsonList a b = true → a = b
  | [], [], _ => rfl
  | x :: xs, y :: ys, h => by
    simp only [beqJsonList, Bool.and_eq_true] at h
    exact congrArg₂ List.cons (beqJson_eq x y h.1) (beqJsonList_eq xs ys h.2)

theorem beqJsonFields_eq : ∀ a b : List (String × Json), beqJsonFields a b = true → a = b
  | [], [], _ => rfl
  | (ka, va) :: as, (kb, vb) :: bs, h => by
    simp only [beqJsonFields, Bool.and_eq_true, beq_iff_eq] at h
    have h1 : (ka, va) = (kb, vb) := by
      rw [h.1.1]; exact congrArg (Prod.mk kb) (beqJson_eq va vb h.1.2)
    exact congrArg₂ List.cons h1 (beqJsonFields_eq as bs h.2)

end

mutual

theorem beqJson_rfl : ∀ a : Json, beqJson a a = true
  | .null => rfl
  | .bool _ => by simp [beqJson]
  | .num _ => by simp [beqJson]
  | .str _ => by simp [beqJson]
  | .arr a => beqJsonList_rfl a
  | .obj a => beqJsonFields_rfl a

theorem beqJsonList_rfl : ∀ a : List Json, beqJsonList a a = true
  | [] => rfl
  | x :: xs => by simp only [beqJsonList, Bool.and_eq_true]
                  exact ⟨beqJson_rfl x, beqJsonList_rfl xs⟩

theorem beqJsonFields_rfl : ∀ a : List (String × Json), beqJsonFields a a = true
  | [] => rfl
  | (k, v) :: xs => by simp only [beqJsonFields, Bool.and_eq_true, beq_self_eq_true]
                       exact ⟨⟨trivial, beqJson_rfl v⟩, beqJsonFields_rfl xs⟩

end

instance : DecidableEq Json := fun a b =>
  if h : beqJson a b = true then .isTrue (beqJson_eq a b h)
  else .isFalse (fun he => h (he ▸ beqJson_rfl a))

/-- JS truthiness of a JSON value: `null`, `false`, `0` and the empty string
are falsy; every other value (all objects and arrays included) is truthy. -/
def jsTruthy : Json → Bool
  | .null => false
  | .bool b => b
  | .num n => n != 0
  | .str s => s ≠ ""
  | .arr _ => true
  | .obj _ => true

/-- Whether `typeof v === 'object'` holds in JS for a JSON value: true for
`null`, arrays and objects; false for booleans, numbers and strings. -/
def typeofIsObject : Json → Bool
  | .null => true
  | .arr _ => true
  | .obj _ => true
  | _ => false

/-- Property access `v?.k` (and plain `v.k` on a non-nullish `v`): field
lookup on an object, `undefined` (`none`) on every other JSON value. -/
def jsField (v : Json) (k : String) : Option Json :=
  match v with
  | .obj fields => fields.lookup k
  | _ => none

/-- Element access `v?.[0]`: the head of an array, the `"0"` field of an
object, the one-character string at index 0 of a non-empty string, and
`undefined` (`none`) otherwise. -/
def jsIndex0 (v : Json) : Option Json :=
  match v with
  | .arr (x :: _) => some x
  | .arr [] => none
  | .obj fields => fields.lookup "0"
  | .str s =>
    match s.data with
    | c :: _ => some (.str (String.mk [c]))
    | [] => none
  | _ => none

/-- The chained access `result?.content?.[0]?.text` from
`normalizeResponse` (src/index.ts line 500). -/
def contentText (result : Json) : Option Json :=
  (jsField result "content").bind fun c => (jsIndex0 c).bind fun item => jsField item "text"

/-! ## A model of `JSON.parse`

`processBuffer` and `normalizeResponse` call `JSON.parse`.  We model it by an
executable recursive-descent parser over the character list of the input,
faithful to the JSON grammar as `JSON.parse` accepts it (whitespace, `null`,
booleans, integer numbers, strings with the standard escapes, arrays,
objects; trailing garbage rejected; raw control characters in strings
rejected; leading zeros rejected).  Deviation: number literals with a
fraction or exponent part are rejected instead of producing a float, since
the model has no floats; no claim involves non-integer numbers. -/

/-- JSON whitespace (also the whitespace relevant to `String.trim` on the
protocol lines): space, tab, newline, carriage return. -/
def isWsChar (c : Char) : Bool :=
  c = ' ' || c = '\t' || c = '\n' || c = '\r'

/-- Drop leading JSON whitespace. -/
def skipWs : List Char → List Char
  | c :: cs => if isWsChar c then skipWs cs else c :: cs
  | [] => []

/-- Value of a hexadecimal digit, if any. -/
def hexDigit? (c : Char) : Option Nat :=
  if '0' ≤ c ∧ c ≤ '9' then some (c.toNat - '0'.toNat)
  else if 'a' ≤ c ∧ c ≤ 'f' then some (c.toNat - 'a'.toNat + 10)
  else if 'A' ≤ c ∧ c ≤ 'F' then some (c.toNat - 'A'.toNat + 10)
  else none

/-- Parse the body of a JSON string literal (after the opening quote) up to
and including the closing quote, decoding escapes and rejecting raw control
characters, returning the decoded characters and the rest of the input. -/
def parseStringBody : List Char → Option (List Char × List Char)
  | [] => none
  | c :: cs =>
    if c = '"' then some ([], cs)
    else if c = '\\' then
      match cs with
      | [] => none
      | e :: cs' =>
        if e = '"' ∨ e = '\\' ∨ e = '/' then
          (parseStringBody cs').map fun r => (e :: r.1, r.2)
        else if e = 'n' then (parseStringBody cs').map fun r => ('\n' :: r.1, r.2)
        else if e = 't' then (parseStringBody cs').map fun r => ('\t' :: r.1, r.2)
        else if e = 'r' then (parseStringBody cs').map fun r => ('\r' :: r.1, r.2)
        else if e = 'b' then (parseStringBody cs').map fun r => (Char.ofNat 8 :: r.1, r.2)
        else if e = 'f' then (parseStringBody cs').map fun r => (Char.ofNat 12 :: r.1, r.2)
        else if e = 'u' then
          match cs' with
          | h1 :: h2 :: h3 :: h4 :: cs'' =>
            match hexDigit? h1, hexDigit? h2, hexDigit? h3, hexDigit? h4 with
            | some d1, some d2, some d3, some d4 =>
              (parseStringBody cs'').map fun r =>
                (Char.ofNat (((d1 * 16 + d2) * 16 + d3) * 16 + d4) :: r.1, r.2)
            | _, _, _, _ => none
          | _ => none
        else none
    else if c.toNat < 32 then none
    else (parseStringBody cs).map fun r => (c :: r.1, r.2)

/-- Longest prefix of decimal digits and the rest. -/
def spanDigits (cs : List Char) : List Char × List Char :=
  (cs.takeWhile Char.isDigit, cs.dropWhile Char.isDigit)

/-- Natural number denoted by a digit string. -/
def digitsVal (ds : List Char) : Nat :=
  ds.foldl (fun acc c => acc * 10 + (c.toNat - '0'.toNat)) 0

/-- Parse a JSON number literal restricted to integers: optional minus,
digits without a redundant leading zero, and no fraction/exponent part
(which the integer-only model rejects). -/
def parseIntNum (cs : List Char) : Option (Int × List Char) :=
  let (neg, cs₁) := match cs with
    | '-' :: rest => (true, rest)
    | _ => (false, cs)
  match spanDigits cs₁ with
  | ([], _) => none
  | (d :: ds, rest) =>
    if d = '0' ∧ ds ≠ [] then none
    else match rest with
      | '.' :: _ => none
      | 'e' :: _ => none
      | 'E' :: _ => none
      | _ =>
        let n : Int := Int.ofNat (digitsVal (d :: ds))
        some (if neg then -n else n, rest)

/-- Does a character list start with the given prefix, returning the rest? -/
def stripPref : List Char → List Char → Option (List Char)
  | [], cs => some cs
  | p :: ps, c :: cs => if c = p then stripPref ps cs else none
  | _ :: _, [] => none

/-- Insertion into an object under JS semantics: a repeated key overwrites
the value in place, a fresh key is appended (used both for duplicate keys in
`JSON.parse` and as the model of `Map.set`). -/
def insertField (fields : List (String × Json)) (k : String) (v : Json) :
    List (String × Json) :=
  if fields.any (fun f => f.1 = k) then
    fields.map fun f => if f.1 = k then (k, v) else f
  else fields ++ [(k, v)]

mutual

/-- Parse one JSON value (with surrounding whitespace skipped in front),
returning it and the unconsumed input.  Fuel-driven; `parseJson` supplies
fuel larger than the input length, which is always sufficient, and
insufficient fuel only produces `none`, never a wrong result. -/
def parseValue : Nat → List Char → Option (Json × List Char)
  | 0, _ => none
  | fuel + 1, cs =>
    match skipWs cs with
    | [] => none
    | c :: rest =>
      if c = '"' then
        (parseStringBody rest).map fun r => (.str (String.mk r.1), r.2)
      else if c = '[' then
        match skipWs rest with
        | ']' :: r => some (.arr [], r)
        | other => (parseElems fuel other).map fun r => (.arr r.1, r.2)
      else if c = '\x7b' then
        match skipWs rest with
        | '\x7d' :: r => some (.obj [], r)
        | other =>
          (parseMembers fuel other).map fun r =>
            (.obj (r.1.foldl (fun acc f => insertField acc f.1 f.2) []), r.2)
      else if c = 't' then
        (stripPref ['r', 'u', 'e'] rest).map fun r => (.bool true, r)
      else if c = 'f' then
        (stripPref ['a', 'l', 's', 'e'] rest).map fun r => (.bool false, r)
      else if c = 'n' then
        (stripPref ['u', 'l', 'l'] rest).map fun r => (.null, r)
      else
        (parseIntNum (c :: rest)).map fun r => (.num r.1, r.2)

/-- Parse the non-empty element list of an array, consuming the closing
bracket. -/
def parseElems : Nat → List Char → Option (List Json × List Char)
  | 0, _ => none
  | fuel + 1, cs => do
    let (v, r) ← parseValue fuel cs
    match skipWs r with
    | ',' :: r' => do
      let (vs, r'') ← parseElems fuel r'
      some (v :: vs, r'')
    | ']' :: r' => some ([v], r')
    | _ => none

/-- Parse the non-empty member list of an object, consuming the closing
brace. -/
def parseMembers : Nat → List Char → Option (List (String × Json) × List Char)
  | 0, _ => none
  | fuel + 1, cs =>
    match skipWs cs with
    | '"' :: r => do
      let (k, r₁) ← parseStringBody r
      match skipWs r₁ with
      | ':' :: r₂ => do
        let (v, r₃) ← parseValue fuel r₂
        match skipWs r₃ with
        | ',' :: r₄ => do
          let (ms, r₅) ← parseMembers fuel r₄
          some ((String.mk k, v) :: ms, r₅)
        | '\x7d' :: r₄ => some ([(String.mk k, v)], r₄)
        | _ => none
      | _ => none
    | _ => none

end

/-- The model of `JSON.parse` on a character list: parse one value and
require only whitespace to remain; `none` models a thrown `SyntaxError`. -/
def parseJsonChars (cs : List Char) : Option Json :=
  match parseValue (2 * cs.length + 2) cs with
  | some (v, rest) => if skipWs rest = [] then some v else none
  | none => none

/-- The model of `JSON.parse` on a string. -/
def parseJson (s : String) : Option Json :=
  parseJsonChars s.data

/-! ## Models of `JSON.stringify` and JS string coercion -/

/-- JSON escaping of one string character, as `JSON.stringify` emits it. -/
def escJsonChar (c : Char) : List Char :=
  if c = '"' then ['\\', '"']
  else if c = '\\' then ['\\', '\\']
  else if c = '\n' then ['\\', 'n']
  else if c = '\t' then ['\\', 't']
  else if c = '\r' then ['\\', 'r']
  else if c.toNat = 8 then ['\\', 'b']
  else if c.toNat = 12 then ['\\', 'f']
  else if c.toNat < 32 then
    ['\\', 'u', '0', '0',
     (Nat.digitChar (c.toNat / 16)), (Nat.digitChar (c.toNat % 16))]
  else [c]

/-- A JSON string literal for `s`, quotes included. -/
def quoteJson (s : String) : String :=
  String.mk ('"' :: (s.data.foldr (fun c acc => escJsonChar c ++ acc) ['"']))

mutual

/-- The model of `JSON.stringify` (no spacing argument): used by the
transport both to serialize outgoing frames and to build the fallback
message of a remote error. -/
def stringifyJson : Json → String
  | .null => "null"
  | .bool true => "true"
  | .bool false => "false"
  | .num n => toString n
  | .str s => quoteJson s
  | .arr items => "[" ++ stringifyList items ++ "]"
  | .obj fields => "\x7b" ++ stringifyFields fields ++ "\x7d"

/-- Comma-separated serializations of array elements. -/
def stringifyList : List Json → String
  | [] => ""
  | [x] => stringifyJson x
  | x :: y :: rest => stringifyJson x ++ "," ++ stringifyList (y :: rest)

/-- Comma-separated serializations of object members. -/
def stringifyFields : List (String × Json) → String
  | [] => ""
  | [(k, v)] => quoteJson k ++ ":" ++ stringifyJson v
  | (k, v) :: f :: rest =>
    quoteJson k ++ ":" ++ stringifyJson v ++ "," ++ stringifyFields (f :: rest)

end

mutual

/-- The model of JS `String(v)` coercion (as applied by `new Error(msg)` to
a non-string message and by `JSON.parse` to a non-string argument):
primitives print their value, arrays join their element coercions with
commas (nullish elements becoming empty), objects become
`[object Object]`. -/
def jsToString : Json → String
  | .null => "null"
  | .bool true => "true"
  | .bool false => "false"
  | .num n => toString n
  | .str s => s
  | .arr items => jsJoin items
  | .obj _ => "[object Object]"

/-- `Array.prototype.flatten(',')` over the JS string coercions; a `null`
element joins as the empty string. -/
def jsJoin : List Json → String
  | [] => ""
  | [x] => if x = .null then "" else jsToString x
  | x :: y :: rest =>
    (if x = .null then "" else jsToString x) ++ "," ++ jsJoin (y :: rest)

end

/-! ## The response normalizer

`MCPClient.normalizeData` (src/index.ts lines 515-542) and
`MCPClient.normalizeResponse` (lines 498-510), translated clause by
clause. -/

mutual

/-- `normalizeData(data)`: arrays map the normalization over every element;
an object whose single key is the empty string unwraps to the value under
it (directly if `typeof value !== 'object'`, recursively otherwise); every
other object is rebuilt with the same keys and normalized values; any other
value is returned as is. -/
def normalizeData : Json → Json
  | .arr items => .arr (normalizeList items)
  | .obj [(k, v)] =>
    if k = "" then
      if typeofIsObject v then normalizeData v else v
    else .obj (normalizeFields [(k, v)])
  | .obj fields => .obj (normalizeFields fields)
  | data => data

/-- `data.map(item => this.normalizeData(item))`. -/
def normalizeList : List Json → List Json
  | [] => []
  | x :: xs => normalizeData x :: normalizeList xs

/-- The `Object.entries` rebuild loop of `normalizeData`. -/
def normalizeFields : List (String × Json) → List (String × Json)
  | [] => []
  | (k, v) :: fs => (k, normalizeData v) :: normalizeFields fs

end

/-- `normalizeResponse(result)` (src/index.ts lines 498-510): if
`result?.content?.[0]?.text` is truthy, try to `JSON.parse` it (JS coerces
a non-string argument to a string first); on success normalize the parsed
value, on failure return `result` unchanged; otherwise normalize `result`
itself. -/
def normalizeResponse (result : Json) : Json :=
  match contentText result with
  | some t =>
    if jsTruthy t then
      match parseJson (jsToString t) with
      | some parsed => normalizeData parsed
      | none => result
    else normalizeData result
  | none => normalizeData result

/-! ## The transport state machine

`MCPClient` keeps `requestId` (the monotone id counter), `pendingRequests`
(a `Map` from id to the `resolve`/`reject` pair of that call's promise) and
`buffer` (the accumulator of raw stdout bytes).  The promise of a call is
identified by its id; settling it is modelled by an emitted `Settle` event.
A pending entry also records the `method` string captured by that call's
timeout closure. -/

/-- One promise settlement: `resolve(response.result)` (with `none` for an
absent `result`, i.e. JS `undefined`) or `reject(new Error(msg))` carrying
the error message. -/
inductive Settle where
  | resolve (id : Int) (value : Option Json) : Settle
  | reject (id : Int) (msg : String) : Settle
deriving Repr, DecidableEq

/-- The id a settlement settles. -/
def Settle.sid : Settle → Int
  | .resolve i _ => i
  | .reject i _ => i

/-- The mutable state of one `MCPClient`: the id counter, the pending-request
map in `Map` insertion order, and the stdout accumulator (as a character
list). -/
structure ClientState where
  requestId : Int
  pending : List (Int × String)
  buffer : List Char
deriving Repr, DecidableEq

/-- A freshly constructed client. -/
def initClient : ClientState :=
  { requestId := 0, pending := [], buffer := [] }

/-- `Map.get`: the value stored under a key. -/
def mapGet (m : List (Int × String)) (k : Int) : Option String :=
  m.lookup k

/-- `Map.has`. -/
def mapHas (m : List (Int × String)) (k : Int) : Bool :=
  m.any fun e => e.1 = k

/-- `Map.set`: overwrite in place if the key exists, else append. -/
def mapSet (m : List (Int × String)) (k : Int) (v : String) :
    List (Int × String) :=
  if m.any (fun e => e.1 = k) then
    m.map fun e => if e.1 = k then (k, v) else e
  else m ++ [(k, v)]

/-- `Map.delete`: remove the key. -/
def mapDelete (m : List (Int × String)) (k : Int) : List (Int × String) :=
  m.filter fun e => ¬ e.1 = k

/-- The ids with a pending entry. -/
def pendingIds (st : ClientState) : List Int :=
  st.pending.map Prod.fst

/-- `response.id` as a `Map` key: only a numeric id can match a stored
(numeric) key. -/
def respId (resp : Json) : Option Int :=
  match jsField resp "id" with
  | some (.num i) => some i
  | _ => none

/-- The message of the error a remote failure rejects with:
`response.error.message || JSON.stringify(response.error)`, the truthy
message coerced to a string by the `Error` constructor. -/
def errMessage (e : Json) : String :=
  match jsField e "message" with
  | some m => if jsTruthy m then jsToString m else stringifyJson e
  | none => stringifyJson e

/-- The settlement the correlator performs for a response frame matched to
the pending entry with id `i`: reject on a truthy `error` member, resolve
with `response.result` otherwise. -/
def respSettle (resp : Json) (i : Int) : Settle :=
  match jsField resp "error" with
  | some e => if jsTruthy e then .reject i (errMessage e) else .resolve i (jsField resp "result")
  | none => .resolve i (jsField resp "result")

/-- The correlation step of `processBuffer` (src/index.ts lines 426-436) on
one successfully parsed frame: look the pending map up by `response.id`;
on a hit delete the entry and settle that call's promise; on a miss do
nothing. -/
def handleResponse (st : ClientState) (resp : Json) : ClientState × List Settle :=
  match respId resp with
  | some i =>
    match mapGet st.pending i with
    | some _ =>
      ({ st with pending := mapDelete st.pending i }, [respSettle resp i])
    | none => (st, [])
  | none => (st, [])

/-- Is a protocol line blank, i.e. is `!line.trim()` true in JS?  (Exactly
when every character is whitespace.) -/
def blankLine (line : List Char) : Bool :=
  line.all isWsChar

/-- The per-line body of `processBuffer` (lines 422-439): skip blank lines,
drop lines `JSON.parse` rejects, correlate the rest. -/
def handleLine (st : ClientState) (line : List Char) : ClientState × List Settle :=
  if blankLine line then (st, [])
  else
    match parseJsonChars line with
    | some resp => handleResponse st resp
    | none => (st, [])

/-- `buffer.split('\n')` on character lists: the segments between newline
delimiters, with leading/trailing/adjacent newlines yielding empty
segments, exactly as in JS.  Never returns the empty list. -/
def splitNl : List Char → List (List Char)
  | [] => [[]]
  | c :: cs =>
    if c = '\n' then [] :: splitNl cs
    else
      match splitNl cs with
      | s :: ss => (c :: s) :: ss
      | [] => [[c]]

/-- The framing step of `processBuffer` (lines 419-420): split the
accumulator on newlines, keep the final (possibly incomplete) segment as
the new accumulator (`this.buffer = lines.pop() || ''`), and hand every
complete segment on. -/
def bufferLines (buffer : List Char) : List (List Char) × List Char :=
  let lines := splitNl buffer
  (lines.dropLast, lines.getLastD [])

/-- Fold `handleLine` over the complete segments, accumulating settlements
in order. -/
def runLines (st : ClientState) (lines : List (List Char)) :
    ClientState × List Settle :=
  match lines with
  | [] => (st, [])
  | l :: ls =>
    let (st₁, evs₁) := handleLine st l
    let (st₂, evs₂) := runLines st₁ ls
    (st₂, evs₁ ++ evs₂)

/-- `processBuffer` (lines 418-441): reframe the accumulator, then process
each complete line. -/
def processBuffer (st : ClientState) : ClientState × List Settle :=
  let (lines, buf) := bufferLines st.buffer
  runLines { st with buffer := buf } lines

/-- The stdout `data` handler installed by `start` (lines 402-405): append
the chunk to the accumulator and run `processBuffer`. -/
def feedChunk (st : ClientState) (chunk : List Char) : ClientState × List Settle :=
  processBuffer { st with buffer := st.buffer ++ chunk }

/-- The serialized request frame `JSON.stringify(request) + '\n'` for an id,
method and optional params (`JSON.stringify` omits an `undefined`
`params`). -/
def requestFrame (id : Int) (method : String) (params : Option Json) : String :=
  stringifyJson (.obj ([("jsonrpc", .str "2.0"), ("id", .num id),
    ("method", .str method)] ++
    (match params with | some p => [("params", p)] | none => []))) ++ "\n"

/-- The synchronous body of `request` (lines 456-467): allocate
`++this.requestId`, insert the pending entry, and write the serialized
frame; returns the new state, the allocated id and the written frame.  The
armed 30-second timer is modelled by the separately occurring
`timeoutFire` event below. -/
def request (st : ClientState) (method : String) (params : Option Json) :
    ClientState × Int × String :=
  let id := st.requestId + 1
  ({ st with requestId := id, pending := mapSet st.pending id method },
   id, requestFrame id method params)

/-- The timeout callback armed by `request` for `(id, method)` (lines
469-474): if the id is still pending, delete it and reject that call with
the timeout error naming the method; otherwise do nothing. -/
def timeoutFire (st : ClientState) (id : Int) (method : String) :
    ClientState × List Settle :=
  if mapHas st.pending id then
    ({ st with pending := mapDelete st.pending id },
     [.reject id ("Request timeout: " ++ method)])
  else (st, [])

/-- The pending-table effect of `stop` (lines 544-575): the body runs
`this.pendingRequests.clear()` and then only detaches listeners and kills
the worker; no pending entry is rejected or resolved, so `stop` emits no
settlement. -/
def stopClear (st : ClientState) : ClientState × List Settle :=
  ({ st with pending := [] }, [])

/-- The serialized notification frame written by `notify` (lines 478-485):
like a request frame but with no `id` member. -/
def notifyFrame (method : String) (params : Option Json) : String :=
  stringifyJson (.obj ([("jsonrpc", .str "2.0"), ("method", .str method)] ++
    (match params with | some p => [("params", p)] | none => []))) ++ "\n"

/-! ### Interleavings

An execution of one session is an arbitrary interleaving of the four kinds
of asynchronous turns that touch the client state: an outgoing `request`,
the stdout handler firing with a chunk, a timeout callback firing (for any
id/method pair -- a superset of the timers `request` actually arms, so the
invariants proved over these traces cover all real traces), and `stop`. -/

/-- One asynchronous turn. -/
inductive Act where
  | send (method : String) (params : Option Json) : Act
  | deliver (chunk : List Char) : Act
  | timer (id : Int) (method : String) : Act
  | stopAct : Act

/-- Apply one turn. -/
def step (st : ClientState) (a : Act) : ClientState × List Settle :=
  match a with
  | .send method params => ((request st method params).1, [])
  | .deliver chunk => feedChunk st chunk
  | .timer id method => timeoutFire st id method
  | .stopAct => stopClear st

/-- Run a trace of turns, accumulating every settlement in order. -/
def run (st : ClientState) (acts : List Act) : ClientState × List Settle :=
  match acts with
  | [] => (st, [])
  | a :: as =>
    let (st₁, evs₁) := step st a
    let (st₂, evs₂) := run st₁ as
    (st₂, evs₁ ++ evs₂)

/-! ## The session machine: `start`, the handshake, and `callTool`

`start` (lines 396-416) spawns the worker, attaches the stdout handler and
then awaits the handshake: `await this.request('initialize', ...)`, and on
its resolution `this.notify('notifications/initialized', {})`; only then
does `start` resolve.  `callTool` (lines 487-493) issues
`request('tools/call', ...)` with no check of handshake state.  The machine
below makes the relevant asynchronous turns explicit; the resumption of a
pending `await` is a microtask and therefore runs at the end of the stdout
turn that settled it. -/

/-- The `initialize` params literal from `initialize()` (lines 444-451). -/
def initParams : Json :=
  .obj [("protocolVersion", .str "2024-11-05"),
        ("capabilities", .obj []),
        ("clientInfo", .obj [("name", .str "mcp-code-wrapper-executor"),
                             ("version", .str "1.0.0")])]

/-- Session state: the client plus the control points of `start`'s
coroutine: whether `spawn` has run (`this.process` is set), the id of the
initialize request `start` is awaiting, whether the initialized
notification has been written, and whether `start`'s promise has
resolved. -/
structure SessState where
  client : ClientState
  procStarted : Bool
  initAwait : Option Int
  notifSent : Bool
  startResolved : Bool
deriving Repr, DecidableEq

/-- Observable session events: a frame written to the worker's stdin, a
promise settlement by the correlator, or a synchronous `TypeError` thrown
into a caller's promise because `this.process` is undefined. -/
inductive SessEv where
  | wrote (frame : String) : SessEv
  | settled (ev : Settle) : SessEv
  | callThrew : SessEv
deriving Repr, DecidableEq

/-- A freshly constructed, unstarted client. -/
def sessInit : SessState :=
  { client := initClient, procStarted := false, initAwait := none,
    notifSent := false, startResolved := false }

/-- The session-level turns an external caller or the event loop can
take. -/
inductive SessAct where
  | startBegin : SessAct
  | deliver (chunk : List Char) : SessAct
  | callTool (name : String) (args : Json) : SessAct

/-- Does this turn's settlement list settle id `i` by resolution? -/
def settlesResolve (evs : List Settle) (i : Int) : Bool :=
  evs.any fun e => match e with | .resolve j _ => j == i | .reject _ _ => false

/-- Does this turn's settlement list settle id `i` by rejection? -/
def settlesReject (evs : List Settle) (i : Int) : Bool :=
  evs.any fun e => match e with | .reject j _ => j == i | .resolve _ _ => false

/-- One session turn.  `startBegin` spawns and writes the initialize
request; a `deliver` turn runs the stdout handler and, if it settled the
awaited initialize id, resumes `start`'s coroutine (notification write and
resolution of `start` on success, rejection of `start` on failure);
`callTool` runs `request`: `++this.requestId` and `pendingRequests.set`
happen unconditionally, and then the write to `this.process.stdin` either
puts the `tools/call` frame on the wire (process spawned) or throws a
`TypeError` into the returned promise (process handle undefined) -- in the
throwing case the counter increment and the pending insertion have already
happened and remain, nothing is written, and the `setTimeout` after the
write is never reached. -/
def sessStep (st : SessState) (a : SessAct) : SessState × List SessEv :=
  match a with
  | .startBegin =>
    let r := request st.client "initialize" (some initParams)
    ({ st with procStarted := true, client := r.1, initAwait := some r.2.1 },
     [.wrote r.2.2])
  | .deliver chunk =>
    if st.procStarted then
      let r := feedChunk st.client chunk
      let base := r.2.map SessEv.settled
      match st.initAwait with
      | some i =>
        if settlesResolve r.2 i then
          ({ st with client := r.1, initAwait := none, notifSent := true,
                     startResolved := true },
           base ++ [.wrote (notifyFrame "notifications/initialized" (some (.obj [])))])
        else if settlesReject r.2 i then
          ({ st with client := r.1, initAwait := none }, base)
        else ({ st with client := r.1 }, base)
      | none => ({ st with client := r.1 }, base)
    else (st, [])
  | .callTool name args =>
    let r := request st.client "tools/call"
      (some (.obj [("name", .str name), ("arguments", args)]))
    if st.procStarted then
      ({ st with client := r.1 }, [.wrote r.2.2])
    else
      ({ st with client := r.1 }, [.callThrew])

/-- Run session turns from a state, accumulating events in order. -/
def runSessFrom (st : SessState) (acts : List SessAct) :
    SessState × List SessEv :=
  match acts with
  | [] => (st, [])
  | a :: as =>
    let r := sessStep st a
    let r' := runSessFrom r.1 as
    (r'.1, r.2 ++ r'.2)

/-- Run session turns from a fresh client. -/
def runSess (acts : List SessAct) : SessState × List SessEv :=
  runSessFrom sessInit acts

/-- Repeated application of the correlator to a sequence of parsed response
frames in arrival order. -/
def processResponses (st : ClientState) (resps : List Json) :
    ClientState × List Settle :=
  match resps with
  | [] => (st, [])
  | r :: rs =>
    let (st₁, evs₁) := handleResponse st r
    let (st₂, evs₂) := processResponses st₁ rs
    (st₂, evs₁ ++ evs₂)

/-- The frame-reader face of one `feed`: append the chunk to the
accumulator and split off the complete segments. -/
def feedFrames (buf chunk : List Char) : List (List Char) × List Char :=
  bufferLines (buf ++ chunk)

/-- The frame reader run over a whole chunk sequence from an empty
accumulator, collecting every yielded frame in order. -/
def feedFramesAll (chunks : List (List Char)) : List (List Char) × List Char :=
  chunks.foldl
    (fun acc c =>
      let r := feedFrames acc.2 c
      (acc.1 ++ r.1, r.2))
    ([], [])

/-! ## Helper lemmas -/

theorem mapHas_iff {m : List (Int × String)} {k : Int} :
    mapHas m k = true ↔ ∃ e ∈ m, e.1 = k := by
  simp [mapHas, List.any_eq_true]

theorem mapGet_isSome_of_mapHas : ∀ {m : List (Int × String)} {k : Int},
    mapHas m k = true → ∃ v, mapGet m k = some v := by
  intro m k h
  induction m with
  | nil => simp [mapHas] at h
  | cons e rest ih =>
    obtain ⟨a, b⟩ := e
    by_cases hek : a = k
    · exact ⟨b, by simp [mapGet, List.lookup, hek]⟩
    · have hne : (k == a) = false := by simp [Ne.symm hek]
      have h' : mapHas rest k = true := by
        simp only [mapHas, List.any_cons, Bool.or_eq_true, decide_eq_true_eq] at h
        rcases h with h | h
        · exact absurd h hek
        · simpa [mapHas] using h
      obtain ⟨v, hv⟩ := ih h'
      exact ⟨v, by simpa [mapGet, List.lookup, hne] using hv⟩

theorem mapGet_eq_none_of_not_mapHas : ∀ {m : List (Int × String)} {k : Int},
    mapHas m k = false → mapGet m k = none := by
  intro m k h
  induction m with
  | nil => rfl
  | cons e rest ih =>
    obtain ⟨a, b⟩ := e
    rw [Bool.eq_false_iff] at h
    have h1 : ¬ a = k := fun hc => h (by simp [mapHas, hc])
    have h2 : mapHas rest k = false := by
      rw [Bool.eq_false_iff]
      intro hc
      exact h (by simp only [mapHas, List.any_cons, Bool.or_eq_true]
                  exact Or.inr (by simpa [mapHas] using hc))
    have hne : (k == a) = false := by simp [Ne.symm h1]
    have hr : mapGet rest k = none := ih h2
    simpa [mapGet, List.lookup, hne] using hr

theorem mapHas_delete_self (m : List (Int × String)) (k : Int) :
    mapHas (mapDelete m k) k = false := by
  rw [Bool.eq_false_iff]
  intro hc
  simp only [mapHas, mapDelete, List.any_eq_true, List.mem_filter,
    decide_eq_true_eq] at hc
  obtain ⟨e, ⟨_, hne⟩, he⟩ := hc
  exact hne he

theorem mapHas_delete_ne {m : List (Int × String)} {k k' : Int} (h : k' ≠ k) :
    mapHas (mapDelete m k) k' = mapHas m k' := by
  rw [Bool.eq_iff_iff]
  simp only [mapHas, mapDelete, List.any_eq_true, List.mem_filter,
    decide_eq_true_eq]
  constructor
  · rintro ⟨e, ⟨hm, _⟩, hk⟩
    exact ⟨e, hm, hk⟩
  · rintro ⟨e, hm, hk⟩
    exact ⟨e, ⟨hm, by simp [hk, h]⟩, hk⟩

theorem pendingIds_delete (st : List (Int × String)) (k : Int) :
    (mapDelete st k).map Prod.fst = (st.map Prod.fst).filter (fun i => ¬ i = k) := by
  induction st with
  | nil => rfl
  | cons e rest ih =>
    by_cases hek : e.1 = k
    · simpa [mapDelete, List.filter, hek] using ih
    · simpa [mapDelete, List.filter, hek] using ih

theorem mapSet_fresh {m : List (Int × String)} {k : Int} (v : String)
    (h : mapHas m k = false) : mapSet m k v = m ++ [(k, v)] := by
  have : m.any (fun e => e.1 = k) = false := h
  simp [mapSet, this]

theorem mapHas_set (m : List (Int × String)) (k : Int) (v : String) :
    mapHas (mapSet m k v) k = true := by
  unfold mapSet
  by_cases h : m.any (fun e => e.1 = k) = true
  · rw [if_pos h]
    obtain ⟨e, he, hek⟩ := List.any_eq_true.mp h
    apply List.any_eq_true.mpr
    refine ⟨(k, v), List.mem_map.mpr ⟨e, he, ?_⟩, by simp⟩
    simp only [decide_eq_true_eq] at hek
    simp [hek]
  · rw [if_neg h]
    apply List.any_eq_true.mpr
    exact ⟨(k, v), List.mem_append_right _ (List.mem_singleton.mpr rfl), by simp⟩

theorem normalizeList_map (xs : List Json) :
    normalizeList xs = xs.map normalizeData := by
  induction xs with
  | nil => simp [normalizeList]
  | cons x rest ih => simp [normalizeList, ih]

theorem normalizeFields_map (fs : List (String × Json)) :
    normalizeFields fs = fs.map fun f => (f.1, normalizeData f.2) := by
  induction fs with
  | nil => simp [normalizeFields]
  | cons e rest ih =>
    obtain ⟨k, v⟩ := e
    simp [normalizeFields, ih]

theorem normalizeData_null : normalizeData .null = .null := by
  simp [normalizeData]

theorem normalizeData_bool (b : Bool) : normalizeData (.bool b) = .bool b := by
  simp [normalizeData]

theorem normalizeData_num (n : Int) : normalizeData (.num n) = .num n := by
  simp [normalizeData]

theorem normalizeData_str (s : String) : normalizeData (.str s) = .str s := by
  simp [normalizeData]

theorem normalizeData_arr (xs : List Json) :
    normalizeData (.arr xs) = .arr (normalizeList xs) := by
  simp [normalizeData]

theorem normalizeData_obj_nil : normalizeData (.obj []) = .obj [] := by
  simp [normalizeData, normalizeFields]

theorem normalizeData_obj_single (k : String) (v : Json) :
    normalizeData (.obj [(k, v)]) =
      if k = "" then
        if typeofIsObject v then normalizeData v else v
      else .obj (normalizeFields [(k, v)]) := by
  simp [normalizeData]

theorem normalizeData_obj_cons₂ (a b : String × Json) (rest : List (String × Json)) :
    normalizeData (.obj (a :: b :: rest)) = .obj (normalizeFields (a :: b :: rest)) := by
  simp [normalizeData]

theorem normalizeData_prim_fix {v : Json} (h : typeofIsObject v = false) :
    normalizeData v = v := by
  cases v with
  | null => simp [typeofIsObject] at h
  | bool b => exact normalizeData_bool b
  | num n => exact normalizeData_num n
  | str s => exact normalizeData_str s
  | arr xs => simp [typeofIsObject] at h
  | obj fs => simp [typeofIsObject] at h

mutual

theorem normalizeData_idem : ∀ x : Json,
    normalizeData (normalizeData x) = normalizeData x
  | .null => by rw [normalizeData_null, normalizeData_null]
  | .bool b => by rw [normalizeData_bool, normalizeData_bool]
  | .num n => by rw [normalizeData_num, normalizeData_num]
  | .str s => by rw [normalizeData_str, normalizeData_str]
  | .arr xs => by rw [normalizeData_arr, normalizeData_arr, normalizeList_idem xs]
  | .obj [] => by rw [normalizeData_obj_nil, normalizeData_obj_nil]
  | .obj [(k, v)] => by
    rw [normalizeData_obj_single]
    by_cases hk : k = ""
    · by_cases hv : typeofIsObject v = true
      · rw [if_pos hk, if_pos hv]
        exact normalizeData_idem v
      · rw [if_pos hk, if_neg hv]
        exact normalizeData_prim_fix (Bool.eq_false_iff.mpr hv)
    · rw [if_neg hk]
      show normalizeData (.obj (normalizeFields [(k, v)])) = _
      rw [show normalizeFields [(k, v)] = [(k, normalizeData v)] by
            simp [normalizeFields]]
      rw [normalizeData_obj_single, if_neg hk]
      simp only [normalizeFields]
      rw [normalizeData_idem v]
  | .obj (a :: b :: rest) => by
    rw [normalizeData_obj_cons₂]
    obtain ⟨ka, va⟩ := a
    obtain ⟨kb, vb⟩ := b
    rw [show normalizeFields ((ka, va) :: (kb, vb) :: rest) =
          (ka, normalizeData va) :: (kb, normalizeData vb) :: normalizeFields rest by
        simp [normalizeFields]]
    rw [normalizeData_obj_cons₂]
    rw [show normalizeFields ((ka, normalizeData va) :: (kb, normalizeData vb) ::
          normalizeFields rest) =
          (ka, normalizeData (normalizeData va)) ::
            normalizeFields ((kb, normalizeData vb) :: normalizeFields rest) by
        simp [normalizeFields]]
    rw [normalizeData_idem va]
    have := normalizeFields_idem ((kb, vb) :: rest)
    rw [show normalizeFields ((kb, vb) :: rest) =
          (kb, normalizeData vb) :: normalizeFields rest by simp [normalizeFields]] at this
    rw [this]

theorem normalizeList_idem : ∀ xs : List Json,
    normalizeList (normalizeList xs) = normalizeList xs
  | [] => by simp [normalizeList]
  | x :: rest => by
    rw [show normalizeList (x :: rest) = normalizeData x :: normalizeList rest by
          simp [normalizeList]]
    rw [show normalizeList (normalizeData x :: normalizeList rest) =
          normalizeData (normalizeData x) :: normalizeList (normalizeList rest) by
          simp [normalizeList]]
    rw [normalizeData_idem x, normalizeList_idem rest]

theorem normalizeFields_idem : ∀ fs : List (String × Json),
    normalizeFields (normalizeFields fs) = normalizeFields fs
  | [] => by simp [normalizeFields]
  | (k, v) :: rest => by
    rw [show normalizeFields ((k, v) :: rest) =
          (k, normalizeData v) :: normalizeFields rest by simp [normalizeFields]]
    rw [show normalizeFields ((k, normalizeData v) :: normalizeFields rest) =
          (k, normalizeData (normalizeData v)) :: normalizeFields (normalizeFields rest) by
          simp [normalizeFields]]
    rw [normalizeData_idem v, normalizeFields_idem rest]

end

/-! ## Claims about the response normalizer -/

/-- C3 (amended): the recursive normalization step `normalizeData` is pure
and idempotent: `normalizeData (normalizeData x) = normalizeData x` for
every value `x`.  (The full caller-facing `normalizeResponse`, which also
performs the single-content-item text-unwrapping step, is NOT idempotent;
see the counterexample.) -/
theorem normalizeData_idempotent :
    ∀ x : Json, normalizeData (normalizeData x) = normalizeData x :=
  fun x => normalizeData_idem x

/-- A raw result whose normalization again exposes a parseable
`content[0].text`: one text-unwrapping pass leaves a value that a second
pass unwraps further. -/
def normIdemCex : Json :=
  .obj [("content", .arr [.obj [("text",
    .str "\x7b\"content\":[\x7b\"text\":\"5\"\x7d]\x7d")]])]

/-- C3 counterexample: the caller-facing normalization (text-unwrapping
step included) is not idempotent: on `normIdemCex` the first application
yields an object again carrying `content[0].text = "5"`, and the second
application unwraps it to the number 5. -/
theorem normalizeResponse_not_idempotent :
    normalizeResponse (normalizeResponse normIdemCex) ≠
      normalizeResponse normIdemCex ∧
    normalizeResponse normIdemCex =
      .obj [("content", .arr [.obj [("text", .str "5")]])] ∧
    normalizeResponse (normalizeResponse normIdemCex) = .num 5 := by
  refine ⟨by decide, by decide, by decide⟩

/-- C9: the empty-string-key envelope is unwrapped (directly for a
non-object value, recursively for an object/array/null value, so in every
case a primitive comes out unchanged); an object with any other key set is
rebuilt with the same keys and normalized values; primitives pass through
unchanged; and the spec's three concrete examples hold. -/
theorem emptyKey_envelope_normalization :
    (∀ v : Json, typeofIsObject v = false →
      normalizeData (.obj [("", v)]) = v) ∧
    normalizeData (.obj [("", .null)]) = .null ∧
    (∀ v : Json, typeofIsObject v = true →
      normalizeData (.obj [("", v)]) = normalizeData v) ∧
    normalizeData (.obj [("", .obj [("", .num 5)])]) = .num 5 ∧
    normalizeData (.obj [("", .arr [.num 1, .num 2])]) = .arr [.num 1, .num 2] ∧
    normalizeData (.obj [("a", .num 1), ("b", .num 2)]) =
      .obj [("a", .num 1), ("b", .num 2)] ∧
    (∀ fs : List (String × Json), (¬ ∃ v, fs = [("", v)]) →
      normalizeData (.obj fs) = .obj (fs.map fun f => (f.1, normalizeData f.2))) ∧
    normalizeData .null = .null ∧
    (∀ b, normalizeData (.bool b) = .bool b) ∧
    (∀ n, normalizeData (.num n) = .num n) ∧
    (∀ s, normalizeData (.str s) = .str s) := by
  refine ⟨?_, by decide, ?_, by decide, by decide, by decide, ?_,
    normalizeData_null, normalizeData_bool, normalizeData_num, normalizeData_str⟩
  · intro v hv
    rw [normalizeData_obj_single, if_pos rfl, if_neg (by simp [hv])]
  · intro v hv
    rw [normalizeData_obj_single, if_pos rfl, if_pos hv]
  · intro fs hfs
    match fs with
    | [] => rw [normalizeData_obj_nil]; rfl
    | [(k, v)] =>
      have hk : ¬ k = "" := fun hc => hfs ⟨v, by rw [hc]⟩
      rw [normalizeData_obj_single, if_neg hk, normalizeFields_map]
    | a :: b :: rest =>
      rw [normalizeData_obj_cons₂, normalizeFields_map]

/-- C9 witness: the quantified conjuncts applied at concrete values. -/
theorem emptyKey_envelope_normalization_witness :
    normalizeData (.obj [("", .num 7)]) = .num 7 ∧
    normalizeData (.obj [("", .arr [.null])]) = normalizeData (.arr [.null]) ∧
    normalizeData (.obj [("x", .num 1)]) =
      .obj [("x", normalizeData (.num 1))] := by
  refine ⟨emptyKey_envelope_normalization.1 (.num 7) (by decide),
    emptyKey_envelope_normalization.2.2.1 (.arr [.null]) (by decide),
    ?_⟩
  have := emptyKey_envelope_normalization.2.2.2.2.2.2.1 [("x", .num 1)]
    (by rintro ⟨v, hv⟩; simp at hv)
  simpa using this

/-- C8: when a raw result exposes a content item carrying a (truthy) text
payload, normalization attempts to JSON-decode it; on success it recurses
(via `normalizeData`) into the decoded value, on failure it returns the raw
value unchanged; and the spec's concrete examples hold. -/
theorem content_text_unwrap :
    (∀ (r t : Json), contentText r = some t → jsTruthy t = true →
      (∀ v, parseJson (jsToString t) = some v →
        normalizeResponse r = normalizeData v) ∧
      (parseJson (jsToString t) = none → normalizeResponse r = r)) ∧
    normalizeResponse
        (.obj [("content", .arr [.obj [("text", .str "\x7b\"x\":1\x7d")]])]) =
      .obj [("x", .num 1)] ∧
    normalizeResponse
        (.obj [("content", .arr [.obj [("text", .str "not json")]])]) =
      .obj [("content", .arr [.obj [("text", .str "not json")]])] := by
  refine ⟨?_, by decide, by decide⟩
  intro r t hct ht
  constructor
  · intro v hv
    simp [normalizeResponse, hct, ht, hv]
  · intro hv
    simp [normalizeResponse, hct, ht, hv]

/-- C8 witness: the success and failure branches applied at concrete
inputs. -/
theorem content_text_unwrap_witness :
    normalizeResponse (.obj [("content", .arr [.obj [("text", .str "5")]])]) =
      normalizeData (.num 5) ∧
    normalizeResponse (.obj [("content", .arr [.obj [("text", .str "nope")]])]) =
      .obj [("content", .arr [.obj [("text", .str "nope")]])] :=
  ⟨(content_text_unwrap.1 _ (.str "5") (by decide) (by decide)).1 (.num 5) (by decide),
   (content_text_unwrap.1 _ (.str "nope") (by decide) (by decide)).2 (by decide)⟩

/-- A raw result whose first content item has a present but falsy `text`
member (the number 0) that nevertheless JSON-decodes under the coercion
`JSON.parse` applies. -/
def contentZeroCex : Json :=
  .obj [("content", .arr [.obj [("text", .num 0)], .obj [("text", .str "\"y\"")]])]

/-- C10 counterexample: the first item's `text` is present and its payload
parses as JSON (to the number 0), yet no unwrapping is triggered -- the code
tests truthiness, not presence: the whole raw value is returned (normalized
structurally), not the decoded value of the first item. -/
theorem content_present_not_sufficient :
    contentText contentZeroCex = some (.num 0) ∧
    parseJson (jsToString (.num 0)) = some (.num 0) ∧
    normalizeResponse contentZeroCex = contentZeroCex ∧
    contentZeroCex ≠ normalizeData (.num 0) := by
  refine ⟨by decide, by decide, by decide, by decide⟩

/-- C10 (amended): whenever the first content item's `text` is present and
truthy and its payload JSON-decodes, the decoded value (normalized) is
returned, for a content array of any length -- the remaining items are
discarded and no single-element requirement exists; concretely, a two-item
content array normalizes to the decoded payload of its first item. -/
theorem content_first_item_only :
    (∀ (item : Json) (rest : List Json) (t v : Json),
      jsField item "text" = some t → jsTruthy t = true →
      parseJson (jsToString t) = some v →
      normalizeResponse (.obj [("content", .arr (item :: rest))]) =
        normalizeData v) ∧
    normalizeResponse (.obj [("content",
        .arr [.obj [("text", .str "\x7b\"x\":1\x7d")],
              .obj [("text", .str "\"y\"")]])]) =
      .obj [("x", .num 1)] := by
  refine ⟨?_, by decide⟩
  intro item rest t v ht htr hv
  have hct : contentText (.obj [("content", .arr (item :: rest))]) = some t := by
    have h1 : jsField (.obj [("content", Json.arr (item :: rest))]) "content" =
        some (.arr (item :: rest)) := by simp [jsField, List.lookup]
    simp only [contentText]
    rw [h1]
    exact ht
  simp [normalizeResponse, hct, htr, hv]

/-- C10 witness: the quantified conjunct applied at a two-item content
array. -/
theorem content_first_item_only_witness :
    normalizeResponse (.obj [("content", .arr [.obj [("text", .str "3")], .null])]) =
      normalizeData (.num 3) :=
  content_first_item_only.1 (.obj [("text", .str "3")]) [.null] (.str "3") (.num 3)
    (by decide) (by decide) (by decide)

/-! ## Claims about timeouts and teardown -/

/-- C5: when a call's id is still pending as its timeout fires (no matching
response arrived within the window), the call's promise is rejected with
the timeout-specific error naming the method, and the pending table no
longer contains that id; concretely, one request followed by its timer
firing yields exactly that rejection and an empty table. -/
theorem timeout_rejects_and_removes :
    (∀ (st : ClientState) (id : Int) (m : String),
      mapHas st.pending id = true →
      timeoutFire st id m =
        ({ st with pending := mapDelete st.pending id },
         [.reject id ("Request timeout: " ++ m)]) ∧
      mapHas (mapDelete st.pending id) id = false) ∧
    (run initClient [.send "tools/call" none, .timer 1 "tools/call"]).2 =
      [.reject 1 "Request timeout: tools/call"] ∧
    pendingIds (run initClient [.send "tools/call" none, .timer 1 "tools/call"]).1 = [] := by
  refine ⟨?_, by decide, by decide⟩
  intro st id m h
  exact ⟨by simp [timeoutFire, h], mapHas_delete_self _ _⟩

/-- C5 witness: the quantified conjunct applied at a one-entry pending
table. -/
theorem timeout_rejects_and_removes_witness :
    timeoutFire { requestId := 1, pending := [(1, "m")], buffer := [] } 1 "m" =
      ({ requestId := 1, pending := [], buffer := [] },
       [.reject 1 "Request timeout: m"]) :=
  ((timeout_rejects_and_removes.1
    { requestId := 1, pending := [(1, "m")], buffer := [] } 1 "m" (by decide)).1)

/-- The client state after three `request` calls from a fresh client: three
pending entries with ids 1, 2, 3. -/
def stThreePending : ClientState :=
  (run initClient [.send "a" none, .send "b" none, .send "c" none]).1

/-- C2 counterexample: stopping a session with three pending calls emits no
settlement at all -- in particular it does not reject any of the three
pending entries (with a process-exited error or otherwise), refuting the
claim that every still-pending entry is rejected by `stop()`. -/
theorem stop_does_not_reject_pending :
    pendingIds stThreePending = [1, 2, 3] ∧
    (run stThreePending [.stopAct]).2 = [] ∧
    ¬ (∀ i ∈ pendingIds stThreePending, ∃ msg,
        Settle.reject i msg ∈ (run stThreePending [.stopAct]).2) := by
  refine ⟨by decide, by decide, ?_⟩
  intro h
  obtain ⟨msg, hm⟩ := h 1 (by decide)
  rw [show (run stThreePending [.stopAct]).2 = [] from by decide] at hm
  cases hm

/-- C2 (amended): `stop()` empties the pending table without settling any
entry: it emits no rejection (or resolution), and afterwards even the
still-armed timeout callbacks find their ids absent and do nothing -- so a
caller whose call was pending at teardown is never settled by `stop` and
its promise remains unsettled. -/
theorem stop_clears_without_settling :
    ∀ st : ClientState,
      run st [.stopAct] = ({ st with pending := [] }, []) ∧
      ∀ (id : Int) (m : String),
        timeoutFire { st with pending := [] } id m =
          ({ st with pending := [] }, []) := by
  intro st
  refine ⟨by simp [run, step, stopClear], ?_⟩
  intro id m
  simp [timeoutFire, mapHas]

/-! ## The frame reader (claim C4) -/

/-- The frame reader's effect expressed directly: the complete segments of
the input and the trailing (possibly empty) single segment after the last
newline. -/
def splitParts : List Char → List (List Char) × List Char
  | [] => ([], [])
  | c :: cs =>
    let r := splitParts cs
    if c = '\n' then ([] :: r.1, r.2)
    else
      match r with
      | (p :: ps, l) => ((c :: p) :: ps, l)
      | ([], l) => ([], c :: l)

theorem splitNl_eq_splitParts : ∀ cs : List Char,
    splitNl cs = (splitParts cs).1 ++ [(splitParts cs).2]
  | [] => rfl
  | c :: cs => by
    have ih := splitNl_eq_splitParts cs
    by_cases h : c = '\n'
    · simp [splitNl, splitParts, h, ih]
    · simp only [splitNl, splitParts, if_neg h]
      cases hp : splitParts cs with
      | mk ps l =>
        cases ps with
        | nil => simp [hp] at ih; simp [ih, hp]
        | cons p ps' => simp [hp] at ih; simp [ih, hp]

theorem getLastD_concat_self (ps : List (List Char)) :
    ∀ (l d : List Char), (ps ++ [l]).getLastD d = l := by
  induction ps with
  | nil => intro l d; rfl
  | cons x xs ih =>
    intro l d
    rw [List.cons_append, List.getLastD_cons]
    exact ih l x

theorem bufferLines_eq_splitParts (buf : List Char) :
    bufferLines buf = splitParts buf := by
  have h := splitNl_eq_splitParts buf
  simp only [bufferLines, h]
  rw [List.dropLast_concat, getLastD_concat_self]

/-- The unfolding equation of `splitParts` on a cons cell. -/
theorem splitParts_cons (c : Char) (cs : List Char) :
    splitParts (c :: cs) =
      if c = '\n' then ([] :: (splitParts cs).1, (splitParts cs).2)
      else
        match splitParts cs with
        | (p :: ps, l) => ((c :: p) :: ps, l)
        | ([], l) => ([], c :: l) := rfl

theorem splitParts_append : ∀ a b : List Char,
    splitParts (a ++ b) =
      ((splitParts a).1 ++ (splitParts ((splitParts a).2 ++ b)).1,
       (splitParts ((splitParts a).2 ++ b)).2)
  | [], b => by simp [splitParts]
  | c :: cs, b => by
    have ih := splitParts_append cs b
    by_cases h : c = '\n'
    · rw [List.cons_append, splitParts_cons, splitParts_cons, if_pos h, if_pos h]
      simp [ih]
    · rw [List.cons_append, splitParts_cons, splitParts_cons]
      simp only [if_neg h]
      cases hp : splitParts cs with
      | mk ps l =>
        rw [hp] at ih
        cases hq : splitParts (l ++ b) with
        | mk qs l' =>
          rw [hq] at ih
          cases ps with
          | nil =>
            simp only [List.nil_append] at ih
            rw [ih]
            simp only [List.cons_append, splitParts_cons, if_neg h, hq]
            cases qs with
            | nil => simp
            | cons q qs' => simp
          | cons p ps' =>
            rw [ih]
            simp [hq]

theorem feedFramesAll_aux : ∀ (chunks : List (List Char)) (pre : List Char),
    List.foldl
      (fun acc c =>
        let r := feedFrames acc.2 c
        (acc.1 ++ r.1, r.2))
      (splitParts pre) chunks
      = splitParts (pre ++ chunks.flatten)
  | [], pre => by simp
  | c :: cs, pre => by
    have ih := feedFramesAll_aux cs (pre ++ c)
    have hb : feedFrames (splitParts pre).2 c = splitParts ((splitParts pre).2 ++ c) :=
      bufferLines_eq_splitParts _
    have hstep :
        (let r := feedFrames (splitParts pre).2 c
         ((splitParts pre).1 ++ r.1, r.2)) = splitParts (pre ++ c) := by
      rw [splitParts_append pre c]
      simp [hb]
    calc List.foldl _ (splitParts pre) (c :: cs)
        = List.foldl
            (fun acc c =>
              let r := feedFrames acc.2 c
              (acc.1 ++ r.1, r.2))
            (splitParts (pre ++ c)) cs := by rw [List.foldl_cons, hstep]
      _ = splitParts ((pre ++ c) ++ cs.flatten) := ih
      _ = splitParts (pre ++ (c :: cs).flatten) := by
            rw [List.flatten_cons, List.append_assoc]

theorem feedFramesAll_eq (chunks : List (List Char)) :
    feedFramesAll chunks = splitParts chunks.flatten := by
  have h := feedFramesAll_aux chunks []
  simpa [feedFramesAll] using h

/-- C4: over any sequence of chunks fed from an empty accumulator, the
frame reader yields exactly the complete newline-terminated segments of the
chunk concatenation, in order, and retains the trailing segment as the new
accumulator; each `feed` hands exactly its complete segments to the
per-line processing; and concretely a frame split across two chunks is
processed exactly once, while two newline-separated frames in a single
chunk are processed as two independent frames. -/
theorem frame_reader_reassembly :
    (∀ chunks : List (List Char),
      feedFramesAll chunks =
        ((splitNl chunks.flatten).dropLast, (splitNl chunks.flatten).getLastD [])) ∧
    (∀ (st : ClientState) (chunk : List Char),
      feedChunk st chunk =
        runLines { st with buffer := (feedFrames st.buffer chunk).2 }
          (feedFrames st.buffer chunk).1) ∧
    (run initClient [.send "m" none,
        .deliver ("\x7b\"jsonrpc\":\"2").data,
        .deliver (".0\",\"id\":1,\"result\":5\x7d\n").data]).2 =
      [.resolve 1 (some (.num 5))] ∧
    (run initClient [.send "a" none, .send "b" none,
        .deliver ("\x7b\"jsonrpc\":\"2.0\",\"id\":1,\"result\":1\x7d\n\x7b\"jsonrpc\":\"2.0\",\"id\":2,\"result\":2\x7d\n").data]).2 =
      [.resolve 1 (some (.num 1)), .resolve 2 (some (.num 2))] := by
  refine ⟨?_, ?_, by decide, by decide⟩
  · intro chunks
    have h := feedFramesAll_eq chunks
    have hb := bufferLines_eq_splitParts chunks.flatten
    rw [h, ← hb]
    rfl
  · intro st chunk
    rfl

/-! ## Correlation by id (claim C1) -/

theorem handleResponse_hit {st : ClientState} {r : Json} {i : Int}
    (hid : respId r = some i) (hp : mapHas st.pending i = true) :
    handleResponse st r =
      ({ st with pending := mapDelete st.pending i }, [respSettle r i]) := by
  obtain ⟨v, hv⟩ := mapGet_isSome_of_mapHas hp
  simp [handleResponse, hid, hv]

theorem handleResponse_miss {st : ClientState} {r : Json} {i : Int}
    (hid : respId r = some i) (hp : mapHas st.pending i = false) :
    handleResponse st r = (st, []) := by
  simp [handleResponse, hid, mapGet_eq_none_of_not_mapHas hp]

theorem handleResponse_noid {st : ClientState} {r : Json}
    (hid : respId r = none) : handleResponse st r = (st, []) := by
  simp [handleResponse, hid]

theorem correlation_general : ∀ (resps : List Json) (st : ClientState),
    (∀ r ∈ resps, ∃ i, respId r = some i ∧ mapHas st.pending i = true) →
    (resps.filterMap respId).Nodup →
    (processResponses st resps).2 =
      resps.filterMap (fun r => (respId r).map (fun i => respSettle r i))
  | [], _, _, _ => rfl
  | r :: rs, st, hall, hnd => by
    obtain ⟨i, hid, hp⟩ := hall r (List.mem_cons_self r rs)
    have hstep := handleResponse_hit hid hp
    have hnd' : (rs.filterMap respId).Nodup := by
      rw [List.filterMap_cons, hid] at hnd
      exact hnd.of_cons
    have hi_not : i ∉ rs.filterMap respId := by
      rw [List.filterMap_cons, hid] at hnd
      exact (List.nodup_cons.mp hnd).1
    have hall' : ∀ r' ∈ rs, ∃ i', respId r' = some i' ∧
        mapHas (mapDelete st.pending i) i' = true := by
      intro r' hr'
      obtain ⟨i', hid', hp'⟩ := hall r' (List.mem_cons_of_mem r hr')
      have hne : i' ≠ i := by
        intro hc
        exact hi_not (hc ▸ List.mem_filterMap.mpr ⟨r', hr', hid'⟩)
      exact ⟨i', hid', (mapHas_delete_ne hne).trans hp'⟩
    have ih := correlation_general rs { st with pending := mapDelete st.pending i }
      hall' hnd'
    show (processResponses st (r :: rs)).2 = _
    simp only [processResponses, hstep]
    rw [List.filterMap_cons, hid]
    simp only [Option.map_some']
    rw [← ih]
    rw [List.singleton_append]

/-- After a sequence of `request` calls on a state whose pending ids are
bounded by the id counter, the new entries carry the consecutive fresh ids
`requestId+1, requestId+2, ...` appended in order, and the counter advances
by the number of calls. -/
theorem sends_allocate_fresh (ms : List String) : ∀ (st : ClientState),
    (∀ i ∈ pendingIds st, i ≤ st.requestId) →
    pendingIds (run st (ms.map fun m => Act.send m none)).1
      = pendingIds st ++
          (List.range ms.length).map (fun k : Nat => st.requestId + 1 + (k : Int)) ∧
    (run st (ms.map fun m => Act.send m none)).1.requestId
      = st.requestId + ms.length := by
  induction ms with
  | nil => intro st _; simp [run]
  | cons m rest ih =>
    intro st hbound
    have hfresh : mapHas st.pending (st.requestId + 1) = false := by
      rw [Bool.eq_false_iff]
      intro hc
      obtain ⟨e, he, hek⟩ := mapHas_iff.mp hc
      have := hbound e.1 (List.mem_map.mpr ⟨e, he, rfl⟩)
      omega
    have hset : mapSet st.pending (st.requestId + 1) m =
        st.pending ++ [(st.requestId + 1, m)] := mapSet_fresh m hfresh
    set st' : ClientState :=
      { st with requestId := st.requestId + 1,
                pending := mapSet st.pending (st.requestId + 1) m } with hst'
    have hbound' : ∀ i ∈ pendingIds st', i ≤ st'.requestId := by
      intro i hi
      simp only [hst', pendingIds, hset, List.map_append, List.mem_append] at hi
      rcases hi with hi | hi
      · have := hbound i hi
        simp only [hst']
        omega
      · simp only [List.map_cons, List.map_nil, List.mem_singleton] at hi
        simp [hst', hi]
    obtain ⟨ih1, ih2⟩ := ih st' hbound'
    have hrun : run st ((m :: rest).map fun m => Act.send m none)
        = run st' (rest.map fun m => Act.send m none) := by
      simp only [List.map_cons, run, step, request]
      rfl
    constructor
    · rw [hrun, ih1]
      have hpend' : pendingIds st' = pendingIds st ++ [st.requestId + 1] := by
        simp [hst', pendingIds, hset]
      have hreq' : st'.requestId = st.requestId + 1 := rfl
      rw [hpend', hreq', List.append_assoc]
      congr 1
      rw [List.length_cons, List.range_succ_eq_map, List.map_cons, List.map_map]
      simp only [List.singleton_append, Nat.cast_zero, add_zero]
      have hfun : (fun k : Nat => st.requestId + 1 + 1 + (k : Int)) =
          ((fun k : Nat => st.requestId + 1 + (k : Int)) ∘ Nat.succ) := by
        funext k
        simp only [Function.comp_apply, Nat.succ_eq_add_one]
        push_cast
        ring
      rw [hfun]
    · rw [hrun, ih2]
      simp only [hst', List.length_cons]
      omega

/-- C1: responses are correlated strictly by id, independent of arrival
order: processing any sequence of response frames with distinct pending ids
settles, for each frame in arrival order, exactly the call whose id equals
that frame's own id, with that frame's own result/error; request ids are
allocated distinct (consecutive) values; and concretely three requests
answered on the wire in strictly reverse order each resolve with their own
response's result. -/
theorem correlate_by_id :
    (∀ (resps : List Json) (st : ClientState),
      (∀ r ∈ resps, ∃ i, respId r = some i ∧ mapHas st.pending i = true) →
      (resps.filterMap respId).Nodup →
      (processResponses st resps).2 =
        resps.filterMap (fun r => (respId r).map (fun i => respSettle r i))) ∧
    (∀ ms : List String,
      pendingIds (run initClient (ms.map fun m => Act.send m none)).1
        = (List.range ms.length).map (fun k : Nat => (1 : Int) + (k : Int))) ∧
    (run initClient [.send "a" none, .send "b" none, .send "c" none,
        .deliver ("\x7b\"jsonrpc\":\"2.0\",\"id\":3,\"result\":\"c\"\x7d\n\x7b\"jsonrpc\":\"2.0\",\"id\":2,\"result\":\"b\"\x7d\n\x7b\"jsonrpc\":\"2.0\",\"id\":1,\"result\":\"a\"\x7d\n").data]).2 =
      [.resolve 3 (some (.str "c")), .resolve 2 (some (.str "b")),
       .resolve 1 (some (.str "a"))] := by
  refine ⟨correlation_general, ?_, by decide⟩
  intro ms
  have h := (sends_allocate_fresh ms initClient (by simp [initClient, pendingIds])).1
  rw [h]
  simp [initClient, pendingIds]

/-- C1 witness: the correlation conjunct applied to two concrete responses
arriving in reverse order against a three-entry pending table. -/
theorem correlate_by_id_witness :
    (processResponses
        { requestId := 3, pending := [(1, "a"), (2, "b"), (3, "c")], buffer := [] }
        [.obj [("id", .num 3), ("result", .num 30)],
         .obj [("id", .num 1), ("error", .obj [("message", .str "bad")])]]).2 =
      [.resolve 3 (some (.num 30)), .reject 1 "bad"] := by
  have h := correlate_by_id.1
    [.obj [("id", .num 3), ("result", .num 30)],
     .obj [("id", .num 1), ("error", .obj [("message", .str "bad")])]]
    { requestId := 3, pending := [(1, "a"), (2, "b"), (3, "c")], buffer := [] }
    (by
      intro r hr
      simp only [List.mem_cons, List.not_mem_nil, or_false] at hr
      rcases hr with hr | hr
      · exact ⟨3, by rw [hr]; decide, by decide⟩
      · exact ⟨1, by rw [hr]; decide, by decide⟩)
    (by decide)
  rw [h]
  decide

/-! ## At-most-once settlement (claim C6) -/

/-- The ids settled by a list of settlements. -/
def settleIds (evs : List Settle) : List Int := evs.map Settle.sid

/-- The inductive invariant: pending ids and already-settled ids are
jointly distinct, and all are bounded by the id counter (so a fresh
`++requestId` can never collide). -/
def Inv (st : ClientState) (settled : List Int) : Prop :=
  (pendingIds st ++ settled).Nodup ∧
  ∀ i ∈ pendingIds st ++ settled, i ≤ st.requestId

theorem perm_filter_cons_of_nodup {P : List Int} {i : Int}
    (hP : P.Nodup) (hi : i ∈ P) :
    P.Perm (i :: P.filter fun x => ¬ x = i) := by
  induction P with
  | nil => cases hi
  | cons a P ih =>
    rcases List.mem_cons.mp hi with rfl | hi'
    · have hself : P.filter (fun x => ¬ x = i) = P := by
        apply List.filter_eq_self.mpr
        intro x hx
        have hxa : x ≠ i := fun hc => (List.nodup_cons.mp hP).1 (hc ▸ hx)
        simpa using hxa
      rw [show ((i :: P).filter fun x => ¬ x = i) = P.filter (fun x => ¬ x = i) by
            simp [List.filter]]
      rw [hself]
    · have hane : ¬ a = i := fun hc => (List.nodup_cons.mp hP).1 (hc ▸ hi')
      have ihp := ih (List.nodup_cons.mp hP).2 hi'
      rw [show ((a :: P).filter fun x => ¬ x = i) =
            a :: (P.filter fun x => ¬ x = i) by simp [List.filter, hane]]
      exact (List.Perm.cons a ihp).trans (List.Perm.swap i a _)

theorem inv_move {P S : List Int} {i : Int}
    (h : (P ++ S).Nodup) (hi : i ∈ P) :
    ((P.filter fun x => ¬ x = i) ++ (S ++ [i])).Nodup ∧
    ∀ x ∈ (P.filter fun x => ¬ x = i) ++ (S ++ [i]), x ∈ P ++ S := by
  have hP : P.Nodup := h.of_append_left
  have hpf := perm_filter_cons_of_nodup hP hi
  have p1 : (((P.filter fun x => ¬ x = i) ++ S) ++ [i]).Perm
      (i :: ((P.filter fun x => ¬ x = i) ++ S)) :=
    List.perm_append_singleton i _
  have p2 : ((i :: (P.filter fun x => ¬ x = i)) ++ S).Perm (P ++ S) :=
    List.Perm.append_right S hpf.symm
  have hperm : ((P.filter fun x => ¬ x = i) ++ (S ++ [i])).Perm (P ++ S) := by
    rw [← List.append_assoc]
    exact p1.trans p2
  exact ⟨hperm.nodup_iff.mpr h, fun x hx => hperm.mem_iff.mp hx⟩

theorem inv_settle_delete {st : ClientState} {settled : List Int} {i : Int}
    (h : Inv st settled) (hi : i ∈ pendingIds st) :
    Inv { st with pending := mapDelete st.pending i } (settled ++ [i]) := by
  have hmove := inv_move h.1 hi
  have hpd : pendingIds { st with pending := mapDelete st.pending i } =
      (pendingIds st).filter (fun x => ¬ x = i) := pendingIds_delete st.pending i
  constructor
  · rw [hpd]
    simpa [List.append_assoc] using hmove.1
  · intro x hx
    rw [hpd] at hx
    refine h.2 x (hmove.2 x ?_)
    simpa [List.append_assoc] using hx

theorem respSettle_sid (r : Json) (i : Int) : Settle.sid (respSettle r i) = i := by
  unfold respSettle
  cases jsField r "error" with
  | none => rfl
  | some e => by_cases he : jsTruthy e <;> simp [he, Settle.sid]

theorem inv_handleResponse {st : ClientState} {settled : List Int} (r : Json)
    (h : Inv st settled) :
    Inv (handleResponse st r).1
      (settled ++ settleIds (handleResponse st r).2) ∧
    (handleResponse st r).1.requestId = st.requestId := by
  match hid : respId r with
  | none =>
    rw [handleResponse_noid hid]
    refine ⟨?_, rfl⟩
    simpa [settleIds] using h
  | some i =>
    match hp : mapHas st.pending i with
    | false =>
      rw [handleResponse_miss hid hp]
      refine ⟨?_, rfl⟩
      simpa [settleIds] using h
    | true =>
      rw [handleResponse_hit hid hp]
      obtain ⟨e, he, hei⟩ := mapHas_iff.mp hp
      have hiP : i ∈ pendingIds st := List.mem_map.mpr ⟨e, he, hei⟩
      have hdel := inv_settle_delete h hiP
      refine ⟨?_, rfl⟩
      simpa [settleIds, respSettle_sid] using hdel

theorem inv_runLines {st : ClientState} {settled : List Int}
    (lines : List (List Char)) (h : Inv st settled) :
    Inv (runLines st lines).1 (settled ++ settleIds (runLines st lines).2) ∧
    (runLines st lines).1.requestId = st.requestId := by
  induction lines generalizing st settled with
  | nil =>
    refine ⟨?_, rfl⟩
    simpa [runLines, settleIds] using h
  | cons l ls ih =>
    have hline : Inv (handleLine st l).1 (settled ++ settleIds (handleLine st l).2) ∧
        (handleLine st l).1.requestId = st.requestId := by
      unfold handleLine
      by_cases hb : blankLine l = true
      · refine ⟨?_, by simp [hb]⟩
        simpa [hb, settleIds] using h
      · rw [if_neg hb]
        match hpj : parseJsonChars l with
        | none =>
          refine ⟨?_, rfl⟩
          simpa [settleIds] using h
        | some resp => exact inv_handleResponse resp h
    have hrest := ih hline.1
    constructor
    · have := hrest.1
      simp only [runLines]
      cases hL : handleLine st l with
      | mk st₁ evs₁ =>
        cases hR : runLines st₁ ls with
        | mk st₂ evs₂ =>
          simp only
          rw [hL, hR] at this
          simpa [settleIds, List.append_assoc] using this
    · simp only [runLines]
      cases hL : handleLine st l with
      | mk st₁ evs₁ =>
        cases hR : runLines st₁ ls with
        | mk st₂ evs₂ =>
          simp only
          have h1 := hline.2
          have h2 := hrest.2
          rw [hL] at h1
          rw [hL, hR] at h2
          simp only at h1 h2
          rw [h2, h1]

theorem inv_append_fresh {P S : List Int} {n : Int}
    (h : (P ++ S).Nodup) (hn : n ∉ P ++ S) :
    ((P ++ [n]) ++ S).Nodup := by
  have hperm : ((P ++ [n]) ++ S).Perm (n :: (P ++ S)) :=
    List.Perm.append_right S (List.perm_append_singleton n P)
  exact hperm.nodup_iff.mpr (List.nodup_cons.mpr ⟨hn, h⟩)

theorem inv_step (a : Act) {st : ClientState} {settled : List Int}
    (h : Inv st settled) :
    Inv (step st a).1 (settled ++ settleIds (step st a).2) := by
  match a with
  | .send method params =>
    have hfresh : mapHas st.pending (st.requestId + 1) = false := by
      rw [Bool.eq_false_iff]
      intro hc
      obtain ⟨e, he, hek⟩ := mapHas_iff.mp hc
      have := h.2 e.1 (List.mem_append_left _ (List.mem_map.mpr ⟨e, he, rfl⟩))
      omega
    have hset := mapSet_fresh method hfresh
    have hnotmem : (st.requestId + 1) ∉ pendingIds st ++ settled := by
      intro hc
      have := h.2 _ hc
      omega
    have hpd : pendingIds ((request st method params).1) =
        pendingIds st ++ [st.requestId + 1] := by
      simp [request, pendingIds, hset]
    show Inv (request st method params).1 (settled ++ settleIds [])
    constructor
    · rw [hpd]
      simp only [settleIds, List.map_nil, List.append_nil]
      exact inv_append_fresh h.1 hnotmem
    · intro x hx
      rw [hpd] at hx
      simp only [settleIds, List.map_nil, List.append_nil] at hx
      have hreq : (request st method params).1.requestId = st.requestId + 1 := rfl
      rw [hreq]
      rcases List.mem_append.mp hx with hx | hx
      · rcases List.mem_append.mp hx with hx | hx
        · have := h.2 x (List.mem_append_left _ hx)
          omega
        · simp only [List.mem_singleton] at hx
          omega
      · have := h.2 x (List.mem_append_right _ hx)
        omega
  | .deliver chunk =>
    have h0 : Inv { st with buffer := (bufferLines (st.buffer ++ chunk)).2 } settled := h
    exact (inv_runLines (bufferLines (st.buffer ++ chunk)).1 h0).1
  | .timer id method =>
    match hp : mapHas st.pending id with
    | false =>
      show Inv (timeoutFire st id method).1 (settled ++ settleIds (timeoutFire st id method).2)
      rw [show timeoutFire st id method = (st, []) by simp [timeoutFire, hp]]
      simpa [settleIds] using h
    | true =>
      obtain ⟨e, he, hei⟩ := mapHas_iff.mp hp
      have hiP : id ∈ pendingIds st := List.mem_map.mpr ⟨e, he, hei⟩
      have hdel := inv_settle_delete h hiP
      show Inv (timeoutFire st id method).1 (settled ++ settleIds (timeoutFire st id method).2)
      rw [show timeoutFire st id method =
            ({ st with pending := mapDelete st.pending id },
             [.reject id ("Request timeout: " ++ method)]) by simp [timeoutFire, hp]]
      simpa [settleIds, Settle.sid] using hdel
  | .stopAct =>
    show Inv { st with pending := [] } (settled ++ settleIds [])
    constructor
    · simp only [settleIds, List.map_nil, List.append_nil, pendingIds,
        List.map_nil, List.nil_append]
      exact h.1.of_append_right
    · intro x hx
      simp only [settleIds, List.map_nil, List.append_nil, pendingIds,
        List.nil_append] at hx
      exact h.2 x (List.mem_append_right _ hx)

theorem inv_run : ∀ (acts : List Act) (st : ClientState) (settled : List Int),
    Inv st settled → Inv (run st acts).1 (settled ++ settleIds (run st acts).2)
  | [], st, settled, h => by simpa [run, settleIds] using h
  | a :: as, st, settled, h => by
    have h1 := inv_step a h
    have h2 := inv_run as (step st a).1 (settled ++ settleIds (step st a).2) h1
    cases hs : step st a with
    | mk st₁ evs₁ =>
      cases hr : run st₁ as with
      | mk st₂ evs₂ =>
        rw [hs] at h1 h2
        rw [hr] at h2
        simp only at h1 h2
        rw [show run st (a :: as) = (st₂, evs₁ ++ evs₂) by
              simp only [run, hs]
              rw [hr]]
        simpa [settleIds, List.append_assoc] using h2

/-- C6: over every interleaving of sends, deliveries of chunks, timeout
firings and stops, the pending table holds at most one entry per id and
each id is settled at most once across the whole execution; a response
frame whose id is absent from the pending table (e.g. one arriving after
its call already timed out) leaves the state unchanged and settles
nothing; and concretely a response delivered after its call's timeout has
fired produces no second settlement. -/
theorem at_most_one_settlement :
    (∀ acts : List Act,
      (pendingIds (run initClient acts).1).Nodup ∧
      (settleIds (run initClient acts).2).Nodup) ∧
    (∀ (st : ClientState) (resp : Json) (i : Int),
      respId resp = some i → mapHas st.pending i = false →
      handleResponse st resp = (st, [])) ∧
    (run initClient [.send "m" none, .timer 1 "m",
        .deliver ("\x7b\"jsonrpc\":\"2.0\",\"id\":1,\"result\":5\x7d\n").data]).2 =
      [.reject 1 "Request timeout: m"] := by
  refine ⟨?_, fun _ _ _ hid hp => handleResponse_miss hid hp, by decide⟩
  intro acts
  have h0 : Inv initClient [] := by
    constructor
    · simp [initClient, pendingIds]
    · intro i hi
      simp [initClient, pendingIds] at hi
  have h := inv_run acts initClient [] h0
  rw [List.nil_append] at h
  exact ⟨h.1.of_append_left, h.1.of_append_right⟩

/-- C6 witness: the ignored-response conjunct applied to a state with an
empty pending table and a concrete late response. -/
theorem at_most_one_settlement_witness :
    handleResponse { requestId := 1, pending := [], buffer := [] }
      (.obj [("id", .num 1), ("result", .num 5)]) =
      ({ requestId := 1, pending := [], buffer := [] }, []) :=
  at_most_one_settlement.2.1 _ (.obj [("id", .num 1), ("result", .num 5)]) 1
    (by decide) (by decide)

/-! ## The handshake and `callTool` (claim C7) -/

theorem sessStep_handshake (st : SessState) (a : SessAct)
    (h : st.startResolved = true → st.notifSent = true) :
    (sessStep st a).1.startResolved = true → (sessStep st a).1.notifSent = true := by
  cases a with
  | startBegin => exact h
  | deliver chunk =>
    simp only [sessStep]
    split
    · split
      · split
        · intro
          rfl
        · split
          · exact h
          · exact h
      · exact h
    · exact h
  | callTool name args =>
    simp only [sessStep]
    split
    · exact h
    · exact h

theorem runSessFrom_handshake : ∀ (acts : List SessAct) (st : SessState),
    (st.startResolved = true → st.notifSent = true) →
    ((runSessFrom st acts).1.startResolved = true →
     (runSessFrom st acts).1.notifSent = true)
  | [], _, h => h
  | a :: as, st, h =>
    runSessFrom_handshake as (sessStep st a).1 (sessStep_handshake st a h)

/-- A session trace on which `callTool` is invoked after `start` spawned
the worker but before the initialize response arrived. -/
def prematureTrace : List SessAct :=
  [.startBegin, .callTool "shot" (.obj [])]

set_option maxRecDepth 8192 in
/-- C7 counterexample: after `start` has spawned the worker and written the
initialize request but before any handshake response, a `callTool` is
written straight to the worker as a `tools/call` request frame -- the
session has not finished handshaking (no initialized notification sent,
`start` unresolved), yet the attempt is neither rejected nor blocked: the
event list holds exactly the two written frames and no `TypeError` throw
and no promise rejection. -/
theorem calltool_unguarded :
    (runSess prematureTrace).1.notifSent = false ∧
    (runSess prematureTrace).1.startResolved = false ∧
    (runSess prematureTrace).2 =
      [.wrote (requestFrame 1 "initialize" (some initParams)),
       .wrote (requestFrame 2 "tools/call"
         (some (.obj [("name", .str "shot"), ("arguments", .obj [])])))] ∧
    ¬ (SessEv.callThrew ∈ (runSess prematureTrace).2 ∨
       ∃ i m, SessEv.settled (.reject i m) ∈ (runSess prematureTrace).2) := by
  refine ⟨by decide, by decide, by decide, ?_⟩
  intro h
  rw [show (runSess prematureTrace).2 =
        [.wrote (requestFrame 1 "initialize" (some initParams)),
         .wrote (requestFrame 2 "tools/call"
           (some (.obj [("name", .str "shot"), ("arguments", .obj [])])))] from by decide] at h
  rcases h with h | ⟨i, m, h⟩
  · simp at h
  · simp at h

set_option maxRecDepth 8192 in
/-- C7 (amended): `start` resolves only after the handshake completes -- in
every session trace, a state with `start` resolved has the initialized
notification sent (the notification itself being written only after the
initialize response was processed); a `callTool` on a client whose process
was never spawned has its promise rejected by the `TypeError` from the
undefined process handle before anything reaches the wire -- though
`request` has by then already incremented the id counter and inserted the
pending entry, which is left behind; and no handshake-state check exists in
`callTool`, so on the happy path the `tools/call` frame of a post-start
call follows the initialize frame, the initialize resolution and the
initialized notification in the event order. -/
theorem handshake_gates_start :
    (∀ acts : List SessAct,
      (runSess acts).1.startResolved = true →
      (runSess acts).1.notifSent = true) ∧
    (∀ (st : SessState) (name : String) (args : Json),
      st.procStarted = false →
      (sessStep st (.callTool name args)).2 = [.callThrew] ∧
      (sessStep st (.callTool name args)).1.client.requestId
        = st.client.requestId + 1 ∧
      mapHas (sessStep st (.callTool name args)).1.client.pending
        (st.client.requestId + 1) = true) ∧
    (runSess [.startBegin,
        .deliver ("\x7b\"jsonrpc\":\"2.0\",\"id\":1,\"result\":\x7b\x7d\x7d\n").data,
        .callTool "shot" (.obj [])]).2 =
      [.wrote (requestFrame 1 "initialize" (some initParams)),
       .settled (.resolve 1 (some (.obj []))),
       .wrote (notifyFrame "notifications/initialized" (some (.obj []))),
       .wrote (requestFrame 2 "tools/call"
         (some (.obj [("name", .str "shot"), ("arguments", .obj [])])))] := by
  refine ⟨?_, ?_, by decide⟩
  · intro acts
    exact runSessFrom_handshake acts sessInit (by intro hc; exact absurd hc (by decide))
  · intro st name args hp
    refine ⟨by simp [sessStep, hp], by simp [sessStep, hp, request], ?_⟩
    have hpend : (sessStep st (.callTool name args)).1.client.pending
        = mapSet st.client.pending (st.client.requestId + 1) "tools/call" := by
      simp [sessStep, hp, request]
    rw [hpend]
    exact mapHas_set _ _ _

set_option maxRecDepth 8192 in
/-- C7 witness: the invariant applied to a trace that completes the
handshake, and the no-process error path applied to a fresh session: the
promise rejects, nothing is written, yet the counter is incremented and a
pending entry is left behind. -/
theorem handshake_gates_start_witness :
    (runSess [.startBegin,
        .deliver ("\x7b\"jsonrpc\":\"2.0\",\"id\":1,\"result\":\x7b\x7d\x7d\n").data]).1.notifSent
      = true ∧
    (sessStep sessInit (.callTool "x" .null)).2 = [.callThrew] ∧
    (sessStep sessInit (.callTool "x" .null)).1.client.requestId
      = sessInit.client.requestId + 1 ∧
    mapHas (sessStep sessInit (.callTool "x" .null)).1.client.pending
      (sessInit.client.requestId + 1) = true :=
  ⟨handshake_gates_start.1
      [.startBegin,
       .deliver ("\x7b\"jsonrpc\":\"2.0\",\"id\":1,\"result\":\x7b\x7d\x7d\n").data]
      (by decide),
   handshake_gates_start.2.1 sessInit "x" .null (by decide)⟩

end MCPWrap
